import Mathlib

/-!
Verification development for the `solana-credit-score` repository
(`src/lib.rs` and `src/latitude.rs`).

The Rust sources are shallowly embedded as executable Lean definitions.
Conventions used throughout:

* `u64` / `u8` / `u32` values are modelled as `Nat`; where an overflow or a
  truncating cast matters, a `% 2 ^ 64` (or an explicit hypothesis bounding
  the value) appears in the definition or theorem.
* Rust `saturating_sub` on unsigned integers coincides with `Nat` subtraction.
* A plain Rust `-` on unsigned integers panics on underflow; a computation
  that can panic is modelled as an `Option`, with `none` for the panic.
* `Pubkey` is modelled as `String`; base58 parsing (`str::parse::<Pubkey>`)
  is not part of this repository, so it is passed in as an oracle
  `parse : String → Option Pubkey`.  `Pubkey::default()` (the all-zeros key)
  is modelled by the distinguished value `defaultPubkey`.
* `f64` values produced by the skip-rate division are modelled as
  `Option ℚ`: `some q` is the exact real value of the expression and `none`
  models the IEEE-754 `NaN` produced by `0.0 / 0.0`.
* The unbounded skip-tolerant fetch loop is modelled with explicit fuel;
  a `none` result means the loop was still running when the fuel ran out.
-/

/-- Validator public key, modelled as its string form. -/
abbrev Pubkey := String

/-- Models `Pubkey::default()`, the all-zeros public key. -/
def defaultPubkey : Pubkey := ""

/-- Models `solana_sdk::reward_type::RewardType`. -/
inductive RewardType where
  | fee
  | rent
  | staking
  | voting
deriving DecidableEq, Repr

/-- Models `solana_transaction_status::Reward` (the fields read by
`get_epoch_commissions`: `pubkey`, `reward_type`, `commission`). -/
structure Reward where
  pubkey : String
  rewardType : Option RewardType
  commission : Option Nat
deriving DecidableEq, Repr

/-- Models `solana_sdk::epoch_info::EpochInfo` (the fields read by this
repository: `epoch`, `absolute_slot`, `slot_index`, `slots_in_epoch`). -/
structure EpochInfo where
  epoch : Nat
  absoluteSlot : Nat
  slotIndex : Nat
  slotsInEpoch : Nat
deriving DecidableEq, Repr

/-- Models the RPC vote-account record (the fields read by this repository:
`vote_pubkey`, `node_pubkey`, `activated_stake`, `last_vote`, `root_slot`,
`commission`, `epoch_credits`).  `epochCredits` entries are
`(epoch, credits, prev_credits)` triples. -/
structure VoteAccountInfo where
  votePubkey : String
  nodePubkey : String
  activatedStake : Nat
  lastVote : Nat
  rootSlot : Nat
  commission : Nat
  epochCredits : List (Nat × Nat × Nat)
deriving DecidableEq, Repr

/-- Models lines 31–34 and 163–166 of `src/lib.rs`:
`epoch_info.absolute_slot.saturating_sub(epoch_info.slot_index)
  - (epoch_info.epoch - epoch) * epoch_info.slots_in_epoch`.
The first subtraction saturates (`Nat` subtraction); both occurrences of the
plain `-` operator panic on underflow, modelled by `none`:
`epoch_info.epoch - epoch` underflows when `epoch > epoch_info.epoch`, and
the outer subtraction underflows when the epoch offset exceeds the
saturated base. -/
def firstSlotInEpoch (ei : EpochInfo) (epoch : Nat) : Option Nat :=
  if ei.epoch < epoch then
    none
  else
    let base := ei.absoluteSlot - ei.slotIndex
    let off := (ei.epoch - epoch) * ei.slotsInEpoch
    if base < off then none else some (base - off)

/-- Models lines 163–169 of `src/lib.rs` (the slot-window resolution inside
`get_validator_status`): first slot as in `firstSlotInEpoch`, and
`last_slot = first_slot.saturating_add(slots_in_epoch).min(absolute_slot)`.
There is no future-epoch check on this path. -/
def statusSlotWindow (ei : EpochInfo) (epoch : Nat) : Option (Nat × Nat) :=
  (firstSlotInEpoch ei epoch).map
    (fun first => (first, min (first + ei.slotsInEpoch) ei.absoluteSlot))

/-- Association-list lookup, modelling `BTreeMap::get` on the commission
map: the value stored under `pk`, if any. -/
def lookupComm (m : List (Pubkey × Nat)) (pk : Pubkey) : Option Nat :=
  (m.find? (fun e => e.1 == pk)).map (fun e => e.2)

/-- Association-list insert with overwrite, modelling how collecting an
iterator into a `BTreeMap` lets a later entry with the same key overwrite
an earlier one. -/
def insertComm (m : List (Pubkey × Nat)) (k : Pubkey) (v : Nat) :
    List (Pubkey × Nat) :=
  match m with
  | [] => [(k, v)]
  | (k', v') :: rest =>
      if k' == k then (k, v) :: rest else (k', v') :: insertComm rest k v

/-- Models line 54 of `src/lib.rs`:
`pubkey.parse::<Pubkey>().unwrap_or_default()` — the key a reward entry is
stored under: its parsed pubkey, or the default pubkey when parsing fails. -/
def rewardKey (parse : String → Option Pubkey) (r : Reward) : Pubkey :=
  (parse r.pubkey).getD defaultPubkey

/-- Models lines 44–57 of `src/lib.rs`: filter a block's reward entries to
`reward_type = Some(Voting)` with a present commission and collect them into
a per-key commission map, keyed by `rewardKey` (later duplicates overwrite
earlier ones, as when collecting into a `BTreeMap`). -/
def epochCommissionMap (parse : String → Option Pubkey)
    (rewards : List Reward) : List (Pubkey × Nat) :=
  rewards.foldl
    (fun m r =>
      match r.rewardType, r.commission with
      | some RewardType.voting, some c => insertComm m (rewardKey parse r) c
      | _, _ => m)
    []

/-- The step function folded over the rewards at lines 44–57. -/
def commStep (parse : String → Option Pubkey)
    (m : List (Pubkey × Nat)) (r : Reward) : List (Pubkey × Nat) :=
  match r.rewardType, r.commission with
  | some RewardType.voting, some c => insertComm m (rewardKey parse r) c
  | _, _ => m

/-- Outcome of one `get_block_with_config` call, as discriminated by lines
43–77 of `src/lib.rs`: a block (whose `rewards` field is optional), one of
the two recognized skip-class RPC errors, or any other error. -/
inductive FetchResult where
  | ok (rewards : Option (List Reward))
  | errSkip
  | errOther (cause : String)
deriving DecidableEq, Repr

/-- Final outcome of the skip-tolerant scan loop of `get_epoch_commissions`. -/
inductive ScanResult where
  | success (commissions : List (Pubkey × Nat))
  | fetchError (slot : Nat) (cause : String)
deriving DecidableEq, Repr

/-- Models the loop at lines 37–79 of `src/lib.rs`, instrumented with the
list of slots it queries.  `fetch` is the block-fetch oracle; the loop in the
source is unbounded, so it is run on explicit `fuel`: a `none` second
component means the loop was still running when the fuel ran out.  On a
successful block the loop returns that block's voting-commission map
(`rewards.unwrap_or_default()`); on a skip-class error it retries at the
next slot; on any other error it fails with the offending slot and cause. -/
def scanSlots (fetch : Nat → FetchResult) (parse : String → Option Pubkey) :
    Nat → Nat → List Nat × Option ScanResult
  | 0, _ => ([], none)
  | fuel + 1, slot =>
      match fetch slot with
      | FetchResult.ok rewards =>
          ([slot], some (ScanResult.success (epochCommissionMap parse (rewards.getD []))))
      | FetchResult.errSkip =>
          let rest := scanSlots fetch parse fuel (slot + 1)
          (slot :: rest.1, rest.2)
      | FetchResult.errOther cause =>
          ([slot], some (ScanResult.fetchError slot cause))

/-- Overall outcome of `get_epoch_commissions`.  `panicUnderflow` models the
Rust panic of the unchecked slot-arithmetic underflow (an abort, not a
returned error). -/
inductive EpochCommResult where
  | futureEpoch (epoch : Nat)
  | panicUnderflow
  | fetchError (slot : Nat) (cause : String)
  | success (commissions : List (Pubkey × Nat))
deriving DecidableEq, Repr

/-- Models `get_epoch_commissions` (lines 22–80 of `src/lib.rs`): reject a
future epoch, resolve the epoch's first slot, then run the skip-tolerant
scan from that slot.  `none` means the unbounded loop outran the fuel. -/
def get_epoch_commissions (fetch : Nat → FetchResult)
    (parse : String → Option Pubkey) (ei : EpochInfo) (epoch : Nat)
    (fuel : Nat) : Option EpochCommResult :=
  if ei.epoch < epoch then
    some (EpochCommResult.futureEpoch epoch)
  else
    match firstSlotInEpoch ei epoch with
    | none => some EpochCommResult.panicUnderflow
    | some first =>
        (scanSlots fetch parse fuel first).2.map
          (fun r =>
            match r with
            | ScanResult.success m => EpochCommResult.success m
            | ScanResult.fetchError s c => EpochCommResult.fetchError s c)

/-- Models lines 171–192 of `src/lib.rs`: extract the validator's
`(leader_slots_elapsed, blocks_produced, skip_rate)` triple from the
block-production result (`by_identity`, modelled as an association list of
`identity ↦ (leader_slots, blocks_produced)`).  The `f64` skip rate
`100. * (leader_slots.saturating_sub(blocks_produced)) as f64
  / leader_slots as f64`
is modelled as an exact rational, with `none` standing for the IEEE-754
`NaN` that `0.0 / 0.0` produces when `leader_slots = 0`.  When the identity
is absent, `unwrap_or_default()` yields `(0, 0, 0.0)`. -/
def blockProduction (byIdentity : List (String × Nat × Nat))
    (identity : String) : Nat × Nat × Option ℚ :=
  match byIdentity.find? (fun e => e.1 == identity) with
  | none => (0, 0, some 0)
  | some (_, leaderSlots, blocksProduced) =>
      (leaderSlots, blocksProduced,
        if leaderSlots = 0 then none
        else some (100 * ((leaderSlots - blocksProduced : Nat) : ℚ) / (leaderSlots : ℚ)))

/-- Models lines 271–280 of `src/lib.rs`: the commission applied to one
account's epoch credits.  `0` when `ignore_commission`; otherwise the
looked-up historical commission when a commission map is present (the
source calls `.unwrap()` on the lookup, so a missing key panics — `none`),
else the account's current `commission` field. -/
def commissionOf (epochCommissions : Option (List (Pubkey × Nat)))
    (ignoreCommission : Bool) (vai : VoteAccountInfo) (pk : Pubkey) :
    Option Nat :=
  if ignoreCommission then some 0
  else
    match epochCommissions with
    | some m => lookupComm m pk
    | none => some vai.commission

/-- Models lines 265–294 of `src/lib.rs`: one account's staker credits.
Find the epoch-credits entry for `epoch` (`0` when absent); otherwise
`epoch_credits = credits.saturating_sub(prev_credits)` and
`staker_credits = (u128(epoch_credits) * u128(100 - commission) / 100) as u64`.
`100 - commission` is `u8` arithmetic and panics when `commission > 100`;
a panic (there or in the map lookup) is `none`.  The final `as u64` cast is
the `% 2 ^ 64`. -/
def stakerCredits (epochCommissions : Option (List (Pubkey × Nat)))
    (ignoreCommission : Bool) (epoch : Nat) (vai : VoteAccountInfo)
    (pk : Pubkey) : Option Nat :=
  match vai.epochCredits.find? (fun ec => ec.1 == epoch) with
  | none => some 0
  | some (_, credits, prevCredits) =>
      match commissionOf epochCommissions ignoreCommission vai pk with
      | none => none
      | some c =>
          if 100 < c then none
          else some ((credits - prevCredits) * (100 - c) / 100 % 2 ^ 64)

/-- Models lines 263–298 of `src/lib.rs`: the ranking entry contributed by
one vote account.  `some none` when the account's `vote_pubkey` does not
parse (the account is silently dropped by `filter_map`); `none` when the
staker-credit computation panics; otherwise the
`(staker_credits, vote_pubkey, activated_stake)` entry. -/
def accountEntry (parse : String → Option Pubkey)
    (epochCommissions : Option (List (Pubkey × Nat))) (ignoreCommission : Bool)
    (epoch : Nat) (vai : VoteAccountInfo) :
    Option (Option (Nat × Pubkey × Nat)) :=
  match parse vai.votePubkey with
  | none => some none
  | some pk =>
      (stakerCredits epochCommissions ignoreCommission epoch vai pk).map
        (fun sc => some (sc, pk, vai.activatedStake))

/-- Models lines 259–299 of `src/lib.rs`: the unsorted ranking list built by
`filter_map` over the chained `current ++ delinquent` accounts.  `none` when
any account's staker-credit computation panics. -/
def creditEntries (parse : String → Option Pubkey)
    (epochCommissions : Option (List (Pubkey × Nat))) (ignoreCommission : Bool)
    (epoch : Nat) : List VoteAccountInfo → Option (List (Nat × Pubkey × Nat))
  | [] => some []
  | vai :: rest =>
      match accountEntry parse epochCommissions ignoreCommission epoch vai with
      | none => none
      | some none => creditEntries parse epochCommissions ignoreCommission epoch rest
      | some (some e) =>
          (creditEntries parse epochCommissions ignoreCommission epoch rest).map
            (fun tail => e :: tail)

/-- Stable descending insertion by the first (staker-credits) component:
the new element is placed after every element with a strictly larger key
and before the first element whose key is `≤` its own, so an earlier
element never jumps over a later one with the same key. -/
def insertDesc (x : Nat × Pubkey × Nat) :
    List (Nat × Pubkey × Nat) → List (Nat × Pubkey × Nat)
  | [] => [x]
  | y :: ys => if x.1 < y.1 then y :: insertDesc x ys else x :: y :: ys

/-- Models line 301 of `src/lib.rs`, `list.sort_by(|a, b| b.0.cmp(&a.0))`:
Rust's `sort_by` is a stable sort, and a stable sort's output is uniquely
determined by the comparator and input order, so stable insertion sort by
descending first component computes the same list. -/
def sortByCreditsDesc :
    List (Nat × Pubkey × Nat) → List (Nat × Pubkey × Nat)
  | [] => []
  | x :: xs => insertDesc x (sortByCreditsDesc xs)

/-- Models lines 250–302 of `src/lib.rs` (`get_validators_by_credit_score`
after the RPC calls): rank the fetched `current` and `delinquent` vote
accounts.  The `epochCommissions` argument is the result of lines 245–249:
`none` when `epoch == epoch_info.epoch` (current-epoch path), else
`some map` with the historical commission map obtained from
`get_epoch_commissions`.  A `none` result models a panic. -/
def get_validators_by_credit_score (parse : String → Option Pubkey)
    (epochCommissions : Option (List (Pubkey × Nat))) (ignoreCommission : Bool)
    (epoch : Nat) (current delinquent : List VoteAccountInfo) :
    Option (List (Nat × Pubkey × Nat)) :=
  (creditEntries parse epochCommissions ignoreCommission epoch
      (current ++ delinquent)).map sortByCreditsDesc

/-- A calendar date, modelling the `(year, month, day)` components of a
`chrono` date (the time component of every date built by `get_date_range`
is fixed at `00:00:00`). -/
structure Date where
  year : Int
  month : Nat
  day : Nat
deriving DecidableEq, Repr

/-- Proleptic-Gregorian leap-year rule, as used by `chrono`. -/
def isLeapYear (y : Int) : Bool :=
  y % 4 == 0 && (y % 100 != 0 || y % 400 == 0)

/-- Number of days in a month of a given year (`0` for an invalid month
number, so no day is valid in such a month). -/
def daysInMonth (y : Int) (m : Nat) : Nat :=
  if m = 1 ∨ m = 3 ∨ m = 5 ∨ m = 7 ∨ m = 8 ∨ m = 10 ∨ m = 12 then 31
  else if m = 4 ∨ m = 6 ∨ m = 9 ∨ m = 11 then 30
  else if m = 2 then (if isLeapYear y then 29 else 28)
  else 0

/-- Models `chrono::NaiveDate::from_ymd_opt`: `none` exactly when the
month/day combination does not exist in that year. -/
def fromYmdOpt (y : Int) (m d : Nat) : Option Date :=
  if 1 ≤ m ∧ m ≤ 12 ∧ 1 ≤ d ∧ d ≤ daysInMonth y m then some ⟨y, m, d⟩
  else none

/-- Models `chrono`'s `checked_add_months(Months::new(1))` on a date:
advance the month (rolling December into January of the next year) and
clamp the day to the length of the target month.  `chrono` returns `none`
only when the result leaves its representable year range; with unbounded
`Int` years the model is total. -/
def addOneMonth (dt : Date) : Date :=
  let y := if dt.month = 12 then dt.year + 1 else dt.year
  let m := if dt.month = 12 then 1 else dt.month + 1
  ⟨y, m, min dt.day (daysInMonth y m)⟩

/-- Models `chrono`'s `checked_sub_months(Months::new(1))` on a date:
step the month back (rolling January into December of the previous year)
and clamp the day to the length of the target month. -/
def subOneMonth (dt : Date) : Date :=
  let y := if dt.month = 1 then dt.year - 1 else dt.year
  let m := if dt.month = 1 then 12 else dt.month - 1
  ⟨y, m, min dt.day (daysInMonth y m)⟩

/-- Zero-pad a number to two digits, as `chrono`'s `%m` / `%d` do. -/
def pad2 (n : Nat) : String :=
  if n < 10 then "0" ++ toString n else toString n

/-- Zero-pad a year to four digits with a leading sign for negative years,
as `chrono`'s `%Y` does. -/
def padYear (y : Int) : String :=
  let a := y.natAbs
  let s :=
    if a < 10 then "000" ++ toString a
    else if a < 100 then "00" ++ toString a
    else if a < 1000 then "0" ++ toString a
    else toString a
  if y < 0 then "-" ++ s else s

/-- Models the `format("%Y-%m-%dT00:00:00")` rendering of a midnight
date-time at lines 136–139 of `src/latitude.rs`. -/
def formatDate (dt : Date) : String :=
  padYear dt.year ++ "-" ++ pad2 dt.month ++ "-" ++ pad2 dt.day ++ "T00:00:00"

/-- Models `Latitude::get_date_range` (lines 114–140 of `src/latitude.rs`):
build the candidate date `(year, month, start_day)` at midnight (failing
when that day does not exist in the reference's month); if the reference
day is before `start_day` the window is `(candidate − 1 month, candidate)`,
otherwise `(candidate, candidate + 1 month)`; both bounds are rendered as
`YYYY-MM-DDT00:00:00`. -/
def get_date_range (startDay : Nat) (reference : Date) :
    Option (String × String) :=
  match fromYmdOpt reference.year reference.month startDay with
  | none => none
  | some cand =>
      let window :=
        if reference.day < startDay then (subOneMonth cand, cand)
        else (cand, addOneMonth cand)
      some (formatDate window.1, formatDate window.2)

theorem mem_insertDesc {x y : Nat × Pubkey × Nat} {l : List (Nat × Pubkey × Nat)} :
    y ∈ insertDesc x l ↔ y = x ∨ y ∈ l := by
  induction l with
  | nil => simp [insertDesc]
  | cons z zs ih =>
      by_cases h : x.1 < z.1
      · simp [insertDesc, h, ih]
        tauto
      · simp [insertDesc, h]

theorem insertDesc_perm (x : Nat × Pubkey × Nat) (l : List (Nat × Pubkey × Nat)) :
    (insertDesc x l).Perm (x :: l) := by
  induction l with
  | nil => simp [insertDesc]
  | cons z zs ih =>
      by_cases h : x.1 < z.1
      · simp only [insertDesc, if_pos h]
        exact (ih.cons z).trans (List.Perm.swap x z zs)
      · simp [insertDesc, h]

theorem sortByCreditsDesc_perm (l : List (Nat × Pubkey × Nat)) :
    (sortByCreditsDesc l).Perm l := by
  induction l with
  | nil => simp [sortByCreditsDesc]
  | cons x xs ih =>
      exact (insertDesc_perm x (sortByCreditsDesc xs)).trans (ih.cons x)

theorem pairwise_insertDesc {x : Nat × Pubkey × Nat} {l : List (Nat × Pubkey × Nat)}
    (h : l.Pairwise (fun a b => b.1 ≤ a.1)) :
    (insertDesc x l).Pairwise (fun a b => b.1 ≤ a.1) := by
  induction l with
  | nil => simp [insertDesc]
  | cons z zs ih =>
      by_cases hx : x.1 < z.1
      · simp only [insertDesc, if_pos hx]
        refine List.Pairwise.cons ?_ (ih h.of_cons)
        intro y hy
        rcases mem_insertDesc.mp hy with rfl | hy
        · exact le_of_lt hx
        · exact List.rel_of_pairwise_cons h hy
      · simp only [insertDesc, if_neg hx]
        refine List.Pairwise.cons ?_ h
        intro y hy
        rcases hy with _ | hy
        · omega
        · exact le_trans (List.rel_of_pairwise_cons h (by assumption)) (by omega)

theorem sortByCreditsDesc_sorted (l : List (Nat × Pubkey × Nat)) :
    (sortByCreditsDesc l).Pairwise (fun a b => b.1 ≤ a.1) := by
  induction l with
  | nil => simp [sortByCreditsDesc]
  | cons x xs ih => exact pairwise_insertDesc ih

theorem filter_insertDesc (k : Nat) (x : Nat × Pubkey × Nat)
    (l : List (Nat × Pubkey × Nat))
    (hl : l.Pairwise (fun a b => b.1 ≤ a.1)) :
    (insertDesc x l).filter (fun e => e.1 == k) =
      if x.1 = k then x :: l.filter (fun e => e.1 == k)
      else l.filter (fun e => e.1 == k) := by
  induction l with
  | nil =>
      by_cases hk : x.1 = k <;> simp [insertDesc, hk]
  | cons z zs ih =>
      by_cases h : x.1 < z.1
      · simp only [insertDesc, if_pos h, List.filter_cons]
        rw [ih hl.of_cons]
        by_cases hk : x.1 = k
        · have hz : ¬ (z.1 == k) = true := by
            simp only [beq_iff_eq]
            omega
          simp [hk, hz]
        · simp [hk]
      · simp only [insertDesc, if_neg h, List.filter_cons]
        by_cases hk : x.1 = k <;> simp [hk]

theorem filter_sortByCreditsDesc (k : Nat) (l : List (Nat × Pubkey × Nat)) :
    (sortByCreditsDesc l).filter (fun e => e.1 == k) =
      l.filter (fun e => e.1 == k) := by
  induction l with
  | nil => simp [sortByCreditsDesc]
  | cons x xs ih =>
      simp only [sortByCreditsDesc]
      rw [filter_insertDesc k x _ (sortByCreditsDesc_sorted xs), List.filter_cons]
      by_cases hk : x.1 = k <;> simp [hk, ih]

theorem creditEntries_mem {parse : String → Option Pubkey}
    {cm : Option (List (Pubkey × Nat))} {ig : Bool} {ep : Nat}
    {accounts : List VoteAccountInfo} {vai : VoteAccountInfo}
    {e : Nat × Pubkey × Nat} {l : List (Nat × Pubkey × Nat)}
    (hmem : vai ∈ accounts)
    (he : accountEntry parse cm ig ep vai = some (some e))
    (hl : creditEntries parse cm ig ep accounts = some l) : e ∈ l := by
  induction accounts generalizing l with
  | nil => cases hmem
  | cons a rest ih =>
      rcases List.mem_cons.mp hmem with rfl | hmem'
      · rw [creditEntries, he] at hl
        cases htail : creditEntries parse cm ig ep rest with
        | none => rw [htail] at hl; cases hl
        | some tail =>
            rw [htail] at hl
            simp only [Option.map_some] at hl
            cases hl
            exact List.mem_cons_self e tail
      · rw [creditEntries] at hl
        cases ha : accountEntry parse cm ig ep a with
        | none => rw [ha] at hl; cases hl
        | some o =>
            cases o with
            | none => rw [ha] at hl; exact ih hmem' hl
            | some e' =>
                rw [ha] at hl
                cases htail : creditEntries parse cm ig ep rest with
                | none => rw [htail] at hl; cases hl
                | some tail =>
                    rw [htail] at hl
                    simp only [Option.map_some] at hl
                    cases hl
                    exact List.mem_cons_of_mem e' (ih hmem' htail)

theorem creditEntries_panic {parse : String → Option Pubkey}
    {cm : Option (List (Pubkey × Nat))} {ig : Bool} {ep : Nat}
    {accounts : List VoteAccountInfo} {vai : VoteAccountInfo}
    (hmem : vai ∈ accounts)
    (he : accountEntry parse cm ig ep vai = none) :
    creditEntries parse cm ig ep accounts = none := by
  induction accounts with
  | nil => cases hmem
  | cons a rest ih =>
      rcases List.mem_cons.mp hmem with rfl | hmem'
      · rw [creditEntries, he]
      · rw [creditEntries]
        cases ha : accountEntry parse cm ig ep a with
        | none => rfl
        | some o =>
            cases o with
            | none => exact ih hmem'
            | some e' => rw [ih hmem']; rfl

theorem creditEntries_total {parse : String → Option Pubkey}
    {cm : Option (List (Pubkey × Nat))} {ig : Bool} {ep : Nat}
    {accounts : List VoteAccountInfo}
    (h : ∀ vai ∈ accounts, accountEntry parse cm ig ep vai ≠ none) :
    (creditEntries parse cm ig ep accounts).isSome := by
  induction accounts with
  | nil => simp [creditEntries]
  | cons a rest ih =>
      have ha := h a (List.mem_cons_self a rest)
      have hrest : (creditEntries parse cm ig ep rest).isSome :=
        ih (fun vai hv => h vai (List.mem_cons_of_mem a hv))
      rw [creditEntries]
      cases hae : accountEntry parse cm ig ep a with
      | none => exact absurd hae ha
      | some o =>
          cases o with
          | none => exact hrest
          | some e =>
              cases htail : creditEntries parse cm ig ep rest with
              | none => rw [htail] at hrest; cases hrest
              | some tail => simp

theorem mem_insertComm {m : List (Pubkey × Nat)} {k : Pubkey} {v : Nat}
    {e : Pubkey × Nat} (h : e ∈ insertComm m k v) : e = (k, v) ∨ e ∈ m := by
  induction m with
  | nil => simpa [insertComm] using h
  | cons p rest ih =>
      by_cases hk : p.1 == k
      · rw [show insertComm (p :: rest) k v = (k, v) :: rest by
          cases p; simp [insertComm, hk]] at h
        rcases List.mem_cons.mp h with rfl | h'
        · exact Or.inl rfl
        · exact Or.inr (List.mem_cons_of_mem p h')
      · rw [show insertComm (p :: rest) k v = p :: insertComm rest k v by
          cases p; simp [insertComm]; intro hc; simp [hc] at hk] at h
        rcases List.mem_cons.mp h with rfl | h'
        · exact Or.inr (List.mem_cons_self _ _)
        · rcases ih h' with h'' | h''
          · exact Or.inl h''
          · exact Or.inr (List.mem_cons_of_mem p h'')

theorem epochCommissionMap_eq_foldl (parse : String → Option Pubkey)
    (rewards : List Reward) :
    epochCommissionMap parse rewards = rewards.foldl (commStep parse) [] := rfl

theorem foldl_commStep_mem {parse : String → Option Pubkey}
    {rewards : List Reward} {acc : List (Pubkey × Nat)} {pk : Pubkey} {c : Nat}
    (h : (pk, c) ∈ rewards.foldl (commStep parse) acc) :
    (pk, c) ∈ acc ∨
      ∃ r ∈ rewards, r.rewardType = some RewardType.voting ∧
        r.commission = some c ∧ rewardKey parse r = pk := by
  induction rewards generalizing acc with
  | nil => exact Or.inl h
  | cons r rest ih =>
      rw [List.foldl_cons] at h
      rcases ih h with hacc | ⟨r', hr', hv, hc, hk⟩
      · by_cases hvt : r.rewardType = some RewardType.voting
        · cases hcm : r.commission with
          | none => rw [commStep, hvt, hcm] at hacc; exact Or.inl hacc
          | some c' =>
              rw [commStep, hvt, hcm] at hacc
              rcases mem_insertComm hacc with heq | hacc'
              · cases heq
                exact Or.inr ⟨r, List.mem_cons_self _ _, hvt, hcm, rfl⟩
              · exact Or.inl hacc'
        · have : commStep parse acc r = acc := by
            rw [commStep]
            cases hvt' : r.rewardType with
            | none => rfl
            | some t => cases t <;> simp_all [commStep]
          rw [this] at hacc
          exact Or.inl hacc
      · exact Or.inr ⟨r', List.mem_cons_of_mem r hr', hv, hc, hk⟩

theorem lookupComm_cons (p : Pubkey × Nat) (rest : List (Pubkey × Nat))
    (pk : Pubkey) :
    lookupComm (p :: rest) pk =
      if p.1 = pk then some p.2 else lookupComm rest pk := by
  by_cases h : p.1 = pk
  · rw [lookupComm, List.find?_cons_of_pos _ (by simp [h])]
    simp [h]
  · rw [lookupComm, List.find?_cons_of_neg _ (by simp [h])]
    simp [h, lookupComm]

theorem lookupComm_insertComm_isSome (m : List (Pubkey × Nat)) (k k' : Pubkey)
    (v : Nat) :
    (lookupComm (insertComm m k v) k').isSome ↔
      k = k' ∨ (lookupComm m k').isSome := by
  induction m with
  | nil =>
      rw [show insertComm [] k v = [(k, v)] from rfl, lookupComm_cons]
      by_cases hk : k = k' <;> simp [hk, lookupComm]
  | cons p rest ih =>
      by_cases hpk : p.1 == k
      · rw [show insertComm (p :: rest) k v = (k, v) :: rest by
          cases p; simp [insertComm, hpk], lookupComm_cons, lookupComm_cons]
        have hp1 : p.1 = k := by simpa using hpk
        by_cases hk : k = k' <;> simp [hk, hp1]
      · rw [show insertComm (p :: rest) k v = p :: insertComm rest k v by
          cases p; simp [insertComm]; intro hc; simp [hc] at hpk,
          lookupComm_cons, lookupComm_cons]
        have hp1 : p.1 ≠ k := by simpa using hpk
        by_cases hk : p.1 = k'
        · have : ¬ k = k' := fun h => hp1 (h ▸ hk)
          simp [hk]
        · simp [hk, ih]

theorem foldl_commStep_keeps_key {parse : String → Option Pubkey}
    {rewards : List Reward} {acc : List (Pubkey × Nat)} {pk : Pubkey}
    (h : (lookupComm acc pk).isSome) :
    (lookupComm (rewards.foldl (commStep parse) acc) pk).isSome := by
  induction rewards generalizing acc with
  | nil => exact h
  | cons r rest ih =>
      rw [List.foldl_cons]
      refine ih ?_
      rw [commStep]
      cases hvt : r.rewardType with
      | none => exact h
      | some t =>
          cases t with
          | voting =>
              cases hcm : r.commission with
              | none => exact h
              | some c =>
                  exact (lookupComm_insertComm_isSome acc (rewardKey parse r) pk c).mpr
                    (Or.inr h)
          | fee => exact h
          | rent => exact h
          | staking => exact h

theorem foldl_commStep_adds_key {parse : String → Option Pubkey}
    {rewards : List Reward} {acc : List (Pubkey × Nat)} {r : Reward} {c : Nat}
    (hr : r ∈ rewards) (hv : r.rewardType = some RewardType.voting)
    (hc : r.commission = some c) :
    (lookupComm (rewards.foldl (commStep parse) acc) (rewardKey parse r)).isSome := by
  induction rewards generalizing acc with
  | nil => cases hr
  | cons r' rest ih =>
      rw [List.foldl_cons]
      rcases List.mem_cons.mp hr with rfl | hr'
      · refine foldl_commStep_keeps_key ?_
        rw [commStep, hv, hc]
        exact (lookupComm_insertComm_isSome acc (rewardKey parse r) (rewardKey parse r) c).mpr
          (Or.inl rfl)
      · exact ih hr'

/-- C5: when slots `first .. first+k−1` each report a skip-class error and
slot `first+k` resolves (to a block, or to a non-skip error), the scan
queries exactly the `k+1` slots `first, first+1, …, first+k` in ascending
order, one slot increment per skip; on a block it returns that block's
voting-commission map, and on a non-skip error at slot `first+k` it fails
immediately, identifying that slot and its cause, with no retry. -/
theorem scanSlots_skip_run (fetch : Nat → FetchResult)
    (parse : String → Option Pubkey) (first k fuel : Nat) (hfuel : k < fuel)
    (hskips : ∀ i, i < k → fetch (first + i) = FetchResult.errSkip) :
    (∀ rewards, fetch (first + k) = FetchResult.ok rewards →
       scanSlots fetch parse fuel first =
         ((List.range (k + 1)).map (fun i => first + i),
          some (ScanResult.success (epochCommissionMap parse (rewards.getD []))))) ∧
    (∀ cause, fetch (first + k) = FetchResult.errOther cause →
       scanSlots fetch parse fuel first =
         ((List.range (k + 1)).map (fun i => first + i),
          some (ScanResult.fetchError (first + k) cause))) := by
  induction k generalizing first fuel with
  | zero =>
      obtain ⟨f, rfl⟩ : ∃ f, fuel = f + 1 := ⟨fuel - 1, by omega⟩
      constructor
      · intro rewards hok
        rw [Nat.add_zero] at hok
        simp [scanSlots, hok, List.range_succ]
      · intro cause herr
        rw [Nat.add_zero] at herr
        simp [scanSlots, herr, List.range_succ]
  | succ k ih =>
      obtain ⟨f, rfl⟩ : ∃ f, fuel = f + 1 := ⟨fuel - 1, by omega⟩
      have hskip0 : fetch first = FetchResult.errSkip := by
        have := hskips 0 (by omega)
        simpa using this
      have hskips' : ∀ i, i < k → fetch (first + 1 + i) = FetchResult.errSkip := by
        intro i hi
        have := hskips (i + 1) (by omega)
        rwa [show first + (i + 1) = first + 1 + i by omega] at this
      have ihspec := ih (first + 1) f (by omega) hskips'
      have hrange : (List.range (k + 2)).map (fun i => first + i) =
          first :: (List.range (k + 1)).map (fun i => first + 1 + i) := by
        rw [List.range_succ_eq_map, List.map_cons, List.map_map]
        congr 1
        apply List.map_congr_left
        intro i _
        simp only [Function.comp_apply]
        omega
      constructor
      · intro rewards hok
        rw [show first + (k + 1) = first + 1 + k by omega] at hok
        have hrec := ihspec.1 rewards hok
        simp [scanSlots, hskip0, hrec, hrange]
      · intro cause herr
        rw [show first + (k + 1) = first + 1 + k by omega] at herr
        have hrec := ihspec.2 cause herr
        simp [scanSlots, hskip0, hrec, hrange]
        omega

/-- C3, as stated, is false: the second subtraction in the first-slot
computation is a plain `-`, not a saturating one.  At
`epoch_info = { epoch := 1, absolute_slot := 5, slot_index := 5,
slots_in_epoch := 10 }` and `target_epoch = 0` (a chain younger than the
implied offset), the all-saturating formula of the claim yields `0`, but the
code underflows (panics), modelled as `none`. -/
theorem c3_counterexample :
    firstSlotInEpoch ⟨1, 5, 5, 10⟩ 0 ≠ some ((5 - 5) - (1 - 0) * 10) := by
  decide

/-- C3 (amended): for `target_epoch ≤ epoch_info.epoch`, the first
subtraction (`absolute_slot − slot_index`) saturates at zero, but the outer
subtraction of the epoch offset is unchecked: when the offset fits under the
saturated base the result agrees with the claim's formula, and when the
offset exceeds the base the computation underflows (panics) instead of
saturating to zero. -/
theorem c3_first_slot_partial_saturation (ei : EpochInfo) (t : Nat)
    (ht : t ≤ ei.epoch) :
    ((ei.epoch - t) * ei.slotsInEpoch ≤ ei.absoluteSlot - ei.slotIndex →
       firstSlotInEpoch ei t =
         some ((ei.absoluteSlot - ei.slotIndex) - (ei.epoch - t) * ei.slotsInEpoch))
    ∧ (ei.absoluteSlot - ei.slotIndex < (ei.epoch - t) * ei.slotsInEpoch →
       firstSlotInEpoch ei t = none) := by
  constructor
  · intro hle
    rw [firstSlotInEpoch, if_neg (by omega)]
    simp only []
    rw [if_neg (by omega)]
  · intro hlt
    rw [firstSlotInEpoch, if_neg (by omega)]
    simp only []
    rw [if_pos (by omega)]

/-- Witness for C3: for `epoch_info = ⟨10, 50, 5, 32⟩` and target epoch `9`,
the offset `32` fits under the base `45` and the first slot is `13`;
for target epoch `8` the offset `64` exceeds the base and the computation
underflows. -/
theorem c3_witness :
    firstSlotInEpoch ⟨10, 50, 5, 32⟩ 9 = some 13 ∧
      firstSlotInEpoch ⟨10, 50, 5, 32⟩ 8 = none := by
  constructor
  · have h := (c3_first_slot_partial_saturation ⟨10, 50, 5, 32⟩ 9 (by decide)).1
      (by decide)
    simpa using h
  · exact (c3_first_slot_partial_saturation ⟨10, 50, 5, 32⟩ 8 (by decide)).2
      (by decide)

/-- C7, as stated, is false: it asserts that for
`target_epoch ≤ epoch_info.epoch` the slot-window resolution succeeds, but
at `epoch_info = ⟨1, 5, 5, 10⟩` and `target_epoch = 0 ≤ 1` the
validator-status path's window resolution underflows (panics) instead of
succeeding (and instead of any future-epoch error). -/
theorem c7_counterexample : statusSlotWindow ⟨1, 5, 5, 10⟩ 0 = none := by
  decide

/-- C7 (amended): `get_epoch_commissions` fails with the future-epoch error
exactly when `target_epoch > epoch_info.epoch`; the validator-status path
performs no future-epoch check at all — for a future epoch its slot
computation underflows (panics, `none`) rather than reporting a
future-epoch error; and for `target_epoch ≤ epoch_info.epoch` the
resolution succeeds provided the epoch offset does not exceed
`absolute_slot − slot_index` (otherwise it underflows, see C3). -/
theorem c7_future_epoch_check (fetch : Nat → FetchResult)
    (parse : String → Option Pubkey) (ei : EpochInfo) (t fuel : Nat) :
    (get_epoch_commissions fetch parse ei t fuel =
        some (EpochCommResult.futureEpoch t) ↔ ei.epoch < t)
    ∧ (ei.epoch < t → statusSlotWindow ei t = none)
    ∧ (t ≤ ei.epoch →
       (ei.epoch - t) * ei.slotsInEpoch ≤ ei.absoluteSlot - ei.slotIndex →
       (statusSlotWindow ei t).isSome = true) := by
  refine ⟨⟨fun h => ?_, fun h => ?_⟩, fun h => ?_, fun h1 h2 => ?_⟩
  · by_contra hlt
    rw [get_epoch_commissions, if_neg hlt] at h
    cases hfs : firstSlotInEpoch ei t with
    | none => rw [hfs] at h; cases h
    | some first =>
        simp only [hfs] at h
        cases hscan : (scanSlots fetch parse fuel first).2 with
        | none => rw [hscan] at h; cases h
        | some r => rw [hscan] at h; cases r <;> simp at h
  · rw [get_epoch_commissions, if_pos h]
  · rw [statusSlotWindow, firstSlotInEpoch, if_pos h]
    rfl
  · rw [statusSlotWindow, firstSlotInEpoch, if_neg (by omega)]
    simp only []
    rw [if_neg (by omega)]
    rfl

/-- Witness for C7: at `epoch_info = ⟨10, 50, 5, 32⟩`, requesting epoch `11`
yields the future-epoch error from `get_epoch_commissions` while the
validator-status window panics, and requesting epoch `9` resolves the
window successfully. -/
theorem c7_witness :
    get_epoch_commissions (fun _ => FetchResult.errOther "x") (fun _ => none)
        ⟨10, 50, 5, 32⟩ 11 1 = some (EpochCommResult.futureEpoch 11)
    ∧ statusSlotWindow ⟨10, 50, 5, 32⟩ 11 = none
    ∧ (statusSlotWindow ⟨10, 50, 5, 32⟩ 9).isSome = true := by
  refine ⟨?_, ?_, ?_⟩
  · exact (c7_future_epoch_check (fun _ => FetchResult.errOther "x")
      (fun _ => none) ⟨10, 50, 5, 32⟩ 11 1).1.mpr (by decide)
  · exact (c7_future_epoch_check (fun _ => FetchResult.errOther "x")
      (fun _ => none) ⟨10, 50, 5, 32⟩ 11 1).2.1 (by decide)
  · exact (c7_future_epoch_check (fun _ => FetchResult.errOther "x")
      (fun _ => none) ⟨10, 50, 5, 32⟩ 9 1).2.2 (by decide) (by decide)

/-- C4, as stated, is false: when the validator's identity is present in the
block-production result with `leader_slots = 0`, the skip rate is the `f64`
division `0.0 / 0.0 = NaN` (modelled `none`), not `0`. -/
theorem c4_counterexample :
    (blockProduction [("v", (0, 0))] "v").2.2 ≠ some 0 := by
  decide

/-- C4 (amended): when the identity is absent from the block-production
result the triple is `(0, 0, 0.0)`; when it is present with
`leader_slots > 0` the skip rate is
`100 × (leader_slots − blocks_produced) / leader_slots` (saturating
numerator, exact value); when it is present with `leader_slots = 0` the
skip rate is the `NaN` produced by `0.0 / 0.0`, not `0`. -/
theorem c4_block_production (byId : List (String × Nat × Nat)) (id : String) :
    (byId.find? (fun e => e.1 == id) = none →
       blockProduction byId id = (0, 0, some 0))
    ∧ (∀ p, byId.find? (fun e => e.1 == id) = some p → 0 < p.2.1 →
       blockProduction byId id =
         (p.2.1, p.2.2, some (100 * ((p.2.1 - p.2.2 : Nat) : ℚ) / (p.2.1 : ℚ))))
    ∧ (∀ p, byId.find? (fun e => e.1 == id) = some p → p.2.1 = 0 →
       blockProduction byId id = (0, p.2.2, none)) := by
  refine ⟨fun h => ?_, fun p hp hpos => ?_, fun p hp hz => ?_⟩
  · rw [blockProduction, h]
  · obtain ⟨a, ls, bp⟩ := p
    have hls : 0 < ls := by simpa using hpos
    simp only [blockProduction, hp]
    rw [if_neg (by omega)]
  · obtain ⟨a, ls, bp⟩ := p
    have hls : ls = 0 := by simpa using hz
    subst hls
    simp only [blockProduction, hp]
    simp

/-- Witness for C4: an absent identity yields `(0, 0, 0)`, a present
identity with `8` leader slots and `6` produced blocks yields skip rate
`100 × 2 / 8 = 25`, and a present identity with `0` leader slots yields the
`NaN` marker. -/
theorem c4_witness :
    blockProduction [] "v" = (0, 0, some 0)
    ∧ blockProduction [("v", (8, 6))] "v" =
        (8, 6, some (100 * ((8 - 6 : Nat) : ℚ) / (8 : ℚ)))
    ∧ blockProduction [("w", (0, 3))] "w" = (0, 3, none) := by
  refine ⟨?_, ?_, ?_⟩
  · exact (c4_block_production [] "v").1 (by decide)
  · exact (c4_block_production [("v", (8, 6))] "v").2.1 ("v", (8, 6))
      (by decide) (by decide)
  · exact (c4_block_production [("w", (0, 3))] "w").2.2 ("w", (0, 3))
      (by decide) (by decide)

/-- Witness for C5: with slots `100` and `101` skipped and slot `102`
carrying a block whose single voting reward has commission `5`, the scan
queries exactly `[100, 101, 102]` and returns that block's commission map;
and with slot `100` skipped and slot `101` failing with a non-skip error,
the scan queries exactly `[100, 101]` and fails identifying slot `101`. -/
theorem c5_witness :
    scanSlots
        (fun s => if s < 102 then FetchResult.errSkip
          else if s = 102 then FetchResult.ok (some [⟨"A", some RewardType.voting, some 5⟩])
          else FetchResult.errOther "x")
        (fun s => if s = "A" then some "A" else none) 3 100 =
      ([100, 101, 102], some (ScanResult.success [("A", 5)]))
    ∧ scanSlots
        (fun s => if s < 101 then FetchResult.errSkip
          else FetchResult.errOther "boom")
        (fun s => if s = "A" then some "A" else none) 2 100 =
      ([100, 101], some (ScanResult.fetchError 101 "boom")) := by
  constructor
  · have h := (scanSlots_skip_run
      (fun s => if s < 102 then FetchResult.errSkip
        else if s = 102 then FetchResult.ok (some [⟨"A", some RewardType.voting, some 5⟩])
        else FetchResult.errOther "x")
      (fun s => if s = "A" then some "A" else none) 100 2 3 (by decide)
      (by decide)).1 (some [⟨"A", some RewardType.voting, some 5⟩]) (by decide)
    simpa [List.range_succ] using h
  · have h := (scanSlots_skip_run
      (fun s => if s < 101 then FetchResult.errSkip
        else FetchResult.errOther "boom")
      (fun s => if s = "A" then some "A" else none) 100 1 2 (by decide)
      (by decide)).2 "boom" (by decide)
    simpa [List.range_succ] using h

/-- C6, as stated, is false: a voting reward whose pubkey does not parse is
not dropped — `unwrap_or_default()` maps it to the default (all-zeros)
pubkey and it is inserted into the map under that key.  With a parser that
rejects `"bad"`, the single unparsable voting reward yields a non-empty map
keyed by the default pubkey. -/
theorem c6_counterexample :
    epochCommissionMap (fun s => if s = "A" then some "A" else none)
        [⟨"bad", some RewardType.voting, some 7⟩] = [(defaultPubkey, 7)]
    ∧ epochCommissionMap (fun s => if s = "A" then some "A" else none)
        [⟨"bad", some RewardType.voting, some 7⟩] ≠ [] := by
  constructor
  · decide
  · decide

/-- C6 (amended): every entry of the commission map comes from a reward
entry with `reward_type = Voting` and a present commission, keyed by the
parsed pubkey when it parses and by the default pubkey otherwise
(unparsable identities are not dropped and cause no error), and every
voting reward with a present commission leaves its key present in the map
(a later duplicate key overwrites an earlier value). -/
theorem c6_commission_map_spec (parse : String → Option Pubkey)
    (rewards : List Reward) :
    (∀ pk c, (pk, c) ∈ epochCommissionMap parse rewards →
       ∃ r ∈ rewards, r.rewardType = some RewardType.voting ∧
         r.commission = some c ∧ rewardKey parse r = pk)
    ∧ (∀ r ∈ rewards, r.rewardType = some RewardType.voting →
       ∀ c, r.commission = some c →
       (lookupComm (epochCommissionMap parse rewards) (rewardKey parse r)).isSome = true) := by
  constructor
  · intro pk c hmem
    rw [epochCommissionMap_eq_foldl] at hmem
    rcases foldl_commStep_mem hmem with habs | hfound
    · cases habs
    · exact hfound
  · intro r hr hv c hc
    rw [epochCommissionMap_eq_foldl]
    exact foldl_commStep_adds_key hr hv hc

/-- Witness for C6: with rewards `[("A", Voting, 5), ("bad", Voting, 7)]`
and a parser accepting only `"A"`, the entry stored under the default
pubkey traces back to a voting reward of the block, and the key `"A"` is
present in the map. -/
theorem c6_witness :
    (∃ r ∈ [(⟨"A", some RewardType.voting, some 5⟩ : Reward),
            ⟨"bad", some RewardType.voting, some 7⟩],
       r.rewardType = some RewardType.voting ∧ r.commission = some 7 ∧
         rewardKey (fun s => if s = "A" then some "A" else none) r = defaultPubkey)
    ∧ (lookupComm
        (epochCommissionMap (fun s => if s = "A" then some "A" else none)
          [⟨"A", some RewardType.voting, some 5⟩,
           ⟨"bad", some RewardType.voting, some 7⟩]) "A").isSome = true := by
  constructor
  · exact (c6_commission_map_spec (fun s => if s = "A" then some "A" else none)
      [⟨"A", some RewardType.voting, some 5⟩,
       ⟨"bad", some RewardType.voting, some 7⟩]).1 defaultPubkey 7 (by decide)
  · have h := (c6_commission_map_spec (fun s => if s = "A" then some "A" else none)
      [⟨"A", some RewardType.voting, some 5⟩,
       ⟨"bad", some RewardType.voting, some 7⟩]).2
      ⟨"A", some RewardType.voting, some 5⟩ (by decide) (by decide) 5 (by decide)
    simpa using h

theorem stakerCredits_eval {cm : Option (List (Pubkey × Nat))} {ig : Bool}
    {ep : Nat} {vai : VoteAccountInfo} {pk : Pubkey} {en cr pr c : Nat}
    (hfind : vai.epochCredits.find? (fun ec => ec.1 == ep) = some (en, cr, pr))
    (hcomm : commissionOf cm ig vai pk = some c) (hc : c ≤ 100)
    (hcr : cr < 2 ^ 64) :
    stakerCredits cm ig ep vai pk = some ((cr - pr) * (100 - c) / 100) := by
  have hle : (cr - pr) * (100 - c) / 100 ≤ cr - pr := by
    calc (cr - pr) * (100 - c) / 100 ≤ (cr - pr) * 100 / 100 :=
          Nat.div_le_div_right (Nat.mul_le_mul_left _ (by omega))
      _ = cr - pr := Nat.mul_div_cancel _ (by norm_num)
  have hsmall : (cr - pr) * (100 - c) / 100 < 2 ^ 64 := by omega
  rw [stakerCredits, hfind]
  simp only [hcomm]
  rw [if_neg (by omega), Nat.mod_eq_of_lt hsmall]

theorem rank_mem {parse : String → Option Pubkey}
    {cm : Option (List (Pubkey × Nat))} {ig : Bool} {ep : Nat}
    {current delinquent : List VoteAccountInfo}
    {out : List (Nat × Pubkey × Nat)} {vai : VoteAccountInfo}
    {e : Nat × Pubkey × Nat}
    (hrank : get_validators_by_credit_score parse cm ig ep current delinquent =
      some out)
    (hmem : vai ∈ current ++ delinquent)
    (he : accountEntry parse cm ig ep vai = some (some e)) : e ∈ out := by
  rw [get_validators_by_credit_score] at hrank
  cases hbase : creditEntries parse cm ig ep (current ++ delinquent) with
  | none => rw [hbase] at hrank; cases hrank
  | some base =>
      rw [hbase] at hrank
      simp at hrank
      rw [← hrank]
      exact ((sortByCreditsDesc_perm base).mem_iff).mpr
        (creditEntries_mem hmem he hbase)

/-- C1: for every ranked vote account with an epoch-credits entry for the
target epoch, the staker credits equal
`⌊epoch_credits × (100 − commission) / 100⌋` where
`epoch_credits = credits saturating-minus prev_credits`; the multiplication
is carried out exactly (in `u128`, wider than 64 bits) so the `as u64`
truncation of the quotient is the identity.  In particular for
`commission = 0` the staker credits equal the epoch credits exactly, and
for `commission = 100` they equal `0`.  The commission hypothesis covers
both the current-epoch path (`commissionOf` reads the account's commission
field) and the historical path (it reads the looked-up commission map). -/
theorem c1_staker_credits_formula (parse : String → Option Pubkey)
    (cm : Option (List (Pubkey × Nat))) (ig : Bool) (ep : Nat)
    (current delinquent : List VoteAccountInfo)
    (out : List (Nat × Pubkey × Nat)) (vai : VoteAccountInfo) (pk : Pubkey)
    (en cr pr c : Nat)
    (hrank : get_validators_by_credit_score parse cm ig ep current delinquent =
      some out)
    (hmem : vai ∈ current ++ delinquent)
    (hparse : parse vai.votePubkey = some pk)
    (hfind : vai.epochCredits.find? (fun ec => ec.1 == ep) = some (en, cr, pr))
    (hcomm : commissionOf cm ig vai pk = some c)
    (hc : c ≤ 100) (hcr : cr < 2 ^ 64) :
    ((cr - pr) * (100 - c) / 100, pk, vai.activatedStake) ∈ out
    ∧ (c = 0 → (cr - pr) * (100 - c) / 100 = cr - pr)
    ∧ (c = 100 → (cr - pr) * (100 - c) / 100 = 0) := by
  refine ⟨?_, fun h0 => ?_, fun h100 => ?_⟩
  · refine rank_mem hrank hmem ?_
    simp only [accountEntry, hparse]
    rw [stakerCredits_eval hfind hcomm hc hcr]
    rfl
  · subst h0
    simp
  · subst h100
    simp

/-- Witness for C1: one current-epoch account with credits delta `20` and
commission `10` is ranked with staker credits `20 × 90 / 100 = 18`. -/
theorem c1_witness :
    ((30 - 10) * (100 - 10) / 100, ("v1" : Pubkey), (500 : Nat)) ∈
      [((18 : Nat), ("v1" : Pubkey), (500 : Nat))]
    ∧ ((30 - 10) * (100 - 10) / 100 = 30 - 10 ∨
       (30 - 10) * (100 - 100) / 100 = 0) := by
  constructor
  · exact (c1_staker_credits_formula
      (fun s => if s = "v1" then some "v1" else none) none false 3 
      [⟨"v1", "n1", 500, 0, 0, 10, [(3, 30, 10)]⟩] []
      [(18, "v1", 500)] ⟨"v1", "n1", 500, 0, 0, 10, [(3, 30, 10)]⟩ "v1"
      3 30 10 10 (by decide) (by decide) (by decide) (by decide) (by decide)
      (by decide) (by decide)).1
  · right
    exact (c1_staker_credits_formula
      (fun s => if s = "v1" then some "v1" else none) none false 3
      [⟨"v1", "n1", 500, 0, 0, 100, [(3, 30, 10)]⟩] []
      [(0, "v1", 500)] ⟨"v1", "n1", 500, 0, 0, 100, [(3, 30, 10)]⟩ "v1"
      3 30 10 100 (by decide) (by decide) (by decide) (by decide) (by decide)
      (by decide) (by decide)).2.2 rfl

/-- C2: when the ranking succeeds, its output is a permutation of the
per-account entry list built from the chained `current ++ delinquent`
accounts (one entry per account whose vote pubkey parses, including
accounts with no epoch-credits entry for the target epoch, which appear
with staker credits `0` and their stake), it is sorted in descending order
of staker credits, and for every key the entries with that key appear in
their original relative order (the filter by any fixed key is unchanged —
the characterization of a stable sort). -/
theorem c2_ranking_sorted_stable (parse : String → Option Pubkey)
    (cm : Option (List (Pubkey × Nat))) (ig : Bool) (ep : Nat)
    (current delinquent : List VoteAccountInfo)
    (out : List (Nat × Pubkey × Nat))
    (hrank : get_validators_by_credit_score parse cm ig ep current delinquent =
      some out) :
    (∃ base, creditEntries parse cm ig ep (current ++ delinquent) = some base ∧
       out.Perm base ∧
       ∀ k, out.filter (fun e => e.1 == k) = base.filter (fun e => e.1 == k))
    ∧ out.Pairwise (fun a b => b.1 ≤ a.1)
    ∧ (∀ vai ∈ current ++ delinquent, ∀ pk, parse vai.votePubkey = some pk →
       vai.epochCredits.find? (fun ec => ec.1 == ep) = none →
       (0, pk, vai.activatedStake) ∈ out) := by
  rw [get_validators_by_credit_score] at hrank
  cases hbase : creditEntries parse cm ig ep (current ++ delinquent) with
  | none => rw [hbase] at hrank; cases hrank
  | some base =>
      rw [hbase] at hrank
      simp at hrank
      refine ⟨⟨base, rfl, ?_, ?_⟩, ?_, ?_⟩
      · rw [← hrank]
        exact sortByCreditsDesc_perm base
      · intro k
        rw [← hrank]
        exact filter_sortByCreditsDesc k base
      · rw [← hrank]
        exact sortByCreditsDesc_sorted base
      · intro vai hmem pk hparse hnone
        have he : accountEntry parse cm ig ep vai =
            some (some (0, pk, vai.activatedStake)) := by
          simp only [accountEntry, hparse, stakerCredits, hnone]
          rfl
        rw [← hrank]
        exact ((sortByCreditsDesc_perm base).mem_iff).mpr
          (creditEntries_mem hmem he hbase)

/-- Witness for C2: two accounts (one with an epoch-credits entry, one
without) are both ranked; the zero-credit account appears with its stake,
the list is sorted descending, and the filters at key `0` agree with the
unsorted entry list. -/
theorem c2_witness :
    ([((18 : Nat), ("v1" : Pubkey), (500 : Nat)), (0, "v2", 700)]).Pairwise
        (fun a b => b.1 ≤ a.1)
    ∧ ((0 : Nat), ("v2" : Pubkey), (700 : Nat)) ∈
        [((18 : Nat), ("v1" : Pubkey), (500 : Nat)), (0, "v2", 700)] := by
  have h := c2_ranking_sorted_stable
    (fun s => if s = "v2" then some "v2" else if s = "v1" then some "v1" else none)
    none false 3
    [⟨"v1", "n1", 500, 0, 0, 10, [(3, 30, 10)]⟩]
    [⟨"v2", "n2", 700, 0, 0, 5, []⟩]
    [(18, "v1", 500), (0, "v2", 700)] (by decide)
  refine ⟨h.2.1, ?_⟩
  exact h.2.2 ⟨"v2", "n2", 700, 0, 0, 5, []⟩ (by decide) "v2" (by decide)
    (by decide)

/-- C8: on the historical path (`ignore_commission` false, commission map
present), a ranked account with a matching epoch-credits entry whose
identity is absent from the map makes the whole ranking fail (the `unwrap`
panics; no default commission is substituted); and under the precondition
that the map holds a valid commission for every ranked identity, the
failure branch is unreachable — the ranking succeeds and every ranked
account with a matching entry appears with its looked-up historical
commission applied. -/
theorem c8_historical_commission_loud (parse : String → Option Pubkey)
    (m : List (Pubkey × Nat)) (ep : Nat) :
    (∀ (current delinquent : List VoteAccountInfo) (vai : VoteAccountInfo)
       (pk : Pubkey),
       vai ∈ current ++ delinquent → parse vai.votePubkey = some pk →
       (vai.epochCredits.find? (fun ec => ec.1 == ep)).isSome →
       lookupComm m pk = none →
       get_validators_by_credit_score parse (some m) false ep current
         delinquent = none)
    ∧ (∀ (current delinquent : List VoteAccountInfo),
       (∀ vai ∈ current ++ delinquent, ∀ pk, parse vai.votePubkey = some pk →
          ∃ c, lookupComm m pk = some c ∧ c ≤ 100) →
       (get_validators_by_credit_score parse (some m) false ep current
         delinquent).isSome = true)
    ∧ (∀ (current delinquent : List VoteAccountInfo)
       (out : List (Nat × Pubkey × Nat)) (vai : VoteAccountInfo) (pk : Pubkey)
       (en cr pr c : Nat),
       get_validators_by_credit_score parse (some m) false ep current
         delinquent = some out →
       vai ∈ current ++ delinquent → parse vai.votePubkey = some pk →
       vai.epochCredits.find? (fun ec => ec.1 == ep) = some (en, cr, pr) →
       lookupComm m pk = some c → c ≤ 100 → cr < 2 ^ 64 →
       ((cr - pr) * (100 - c) / 100, pk, vai.activatedStake) ∈ out) := by
  refine ⟨?_, ?_, ?_⟩
  · intro current delinquent vai pk hmem hparse hfind hlook
    obtain ⟨⟨en, cr, pr⟩, htrip⟩ := Option.isSome_iff_exists.mp hfind
    have he : accountEntry parse (some m) false ep vai = none := by
      simp only [accountEntry, hparse, stakerCredits, htrip, commissionOf,
        hlook]
      rfl
    rw [get_validators_by_credit_score, creditEntries_panic hmem he]
    rfl
  · intro current delinquent hcomplete
    rw [get_validators_by_credit_score]
    have htot : (creditEntries parse (some m) false ep
        (current ++ delinquent)).isSome := by
      refine creditEntries_total ?_
      intro vai hmem
      rw [accountEntry]
      cases hparse : parse vai.votePubkey with
      | none => simp
      | some pk =>
          obtain ⟨c, hlook, hc⟩ := hcomplete vai hmem pk hparse
          cases hfind : vai.epochCredits.find? (fun ec => ec.1 == ep) with
          | none => simp [stakerCredits, hfind]
          | some trip =>
              obtain ⟨en, cr, pr⟩ := trip
              simp [stakerCredits, hfind, commissionOf, hlook,
                Nat.not_lt.mpr hc]
    cases hb : creditEntries parse (some m) false ep (current ++ delinquent) with
    | none => rw [hb] at htot; cases htot
    | some base => simp
  · intro current delinquent out vai pk en cr pr c hrank hmem hparse hfind
      hlook hc hcr
    have hcomm : commissionOf (some m) false vai pk = some c := by
      simp [commissionOf, hlook]
    refine rank_mem hrank hmem ?_
    simp only [accountEntry, hparse]
    rw [stakerCredits_eval hfind hcomm hc hcr]
    rfl

/-- Witness for C8: with a map lacking `"v1"`, ranking the single account
fails; with a map holding commission `25` for `"v1"`, the ranking succeeds
and the account appears with `20 × 75 / 100 = 15` staker credits. -/
theorem c8_witness :
    get_validators_by_credit_score
        (fun s => if s = "v1" then some "v1" else none) (some [("w", 3)])
        false 3 [⟨"v1", "n1", 500, 0, 0, 10, [(3, 30, 10)]⟩] [] = none
    ∧ (get_validators_by_credit_score
        (fun s => if s = "v1" then some "v1" else none) (some [("v1", 25)])
        false 3 [⟨"v1", "n1", 500, 0, 0, 10, [(3, 30, 10)]⟩] []).isSome = true
    ∧ ((30 - 10) * (100 - 25) / 100, ("v1" : Pubkey), (500 : Nat)) ∈
        [((15 : Nat), ("v1" : Pubkey), (500 : Nat))] := by
  refine ⟨?_, ?_, ?_⟩
  · exact (c8_historical_commission_loud
      (fun s => if s = "v1" then some "v1" else none) [("w", 3)] 3).1
      [⟨"v1", "n1", 500, 0, 0, 10, [(3, 30, 10)]⟩] []
      ⟨"v1", "n1", 500, 0, 0, 10, [(3, 30, 10)]⟩ "v1" (by decide) (by decide)
      (by decide) (by decide)
  · refine (c8_historical_commission_loud
      (fun s => if s = "v1" then some "v1" else none) [("v1", 25)] 3).2.1
      [⟨"v1", "n1", 500, 0, 0, 10, [(3, 30, 10)]⟩] [] ?_
    intro vai hmem pk hparse
    have hv : vai = ⟨"v1", "n1", 500, 0, 0, 10, [(3, 30, 10)]⟩ := by
      simpa using hmem
    subst hv
    have hpk : pk = "v1" := by
      simpa using hparse.symm
    subst hpk
    exact ⟨25, by decide, by decide⟩
  · exact (c8_historical_commission_loud
      (fun s => if s = "v1" then some "v1" else none) [("v1", 25)] 3).2.2
      [⟨"v1", "n1", 500, 0, 0, 10, [(3, 30, 10)]⟩] [] [(15, "v1", 500)]
      ⟨"v1", "n1", 500, 0, 0, 10, [(3, 30, 10)]⟩ "v1" 3 30 10 25 (by decide)
      (by decide) (by decide) (by decide) (by decide) (by decide) (by decide)

theorem fromYmdOpt_isSome (y : Int) (m d : Nat) :
    (fromYmdOpt y m d).isSome = true ↔
      (1 ≤ m ∧ m ≤ 12 ∧ 1 ≤ d ∧ d ≤ daysInMonth y m) := by
  rw [fromYmdOpt]
  split <;> simp_all

/-- C9: for a valid reference date and a start day in `1..=31`, the window
resolution fails exactly when the start day does not exist in the
reference's month; otherwise, when the reference day is before the start
day the window is `(candidate − 1 month, candidate)` and otherwise
`(candidate, candidate + 1 month)`, where the candidate is
`(year, month, start_day)` at midnight; month shifts roll the December /
January year boundary; and the two concrete examples of the claim hold,
with both bounds rendered as `YYYY-MM-DDT00:00:00`. -/
theorem c9_date_range_spec (sd : Nat) (y : Int) (m d : Nat)
    (hsd1 : 1 ≤ sd) (_hsd31 : sd ≤ 31)
    (href : (fromYmdOpt y m d).isSome = true) :
    ((get_date_range sd ⟨y, m, d⟩).isSome = true ↔ sd ≤ daysInMonth y m)
    ∧ (sd ≤ daysInMonth y m → d < sd →
       get_date_range sd ⟨y, m, d⟩ =
         some (formatDate (subOneMonth ⟨y, m, sd⟩), formatDate ⟨y, m, sd⟩))
    ∧ (sd ≤ daysInMonth y m → sd ≤ d →
       get_date_range sd ⟨y, m, d⟩ =
         some (formatDate ⟨y, m, sd⟩, formatDate (addOneMonth ⟨y, m, sd⟩)))
    ∧ ((addOneMonth ⟨y, 12, sd⟩).year = y + 1
       ∧ (addOneMonth ⟨y, 12, sd⟩).month = 1
       ∧ (subOneMonth ⟨y, 1, sd⟩).year = y - 1
       ∧ (subOneMonth ⟨y, 1, sd⟩).month = 12)
    ∧ get_date_range 5 ⟨2024, 8, 12⟩ =
        some ("2024-08-05T00:00:00", "2024-09-05T00:00:00")
    ∧ get_date_range 25 ⟨2024, 1, 12⟩ =
        some ("2023-12-25T00:00:00", "2024-01-25T00:00:00") := by
  obtain ⟨hm1, hm12, _, _⟩ := (fromYmdOpt_isSome y m d).mp href
  refine ⟨?_, fun hdim hlt => ?_, fun hdim hge => ?_, ?_, ?_, ?_⟩
  · constructor
    · intro hsome
      by_contra hgt
      rw [get_date_range] at hsome
      rw [show fromYmdOpt y m sd = none by
        rw [fromYmdOpt, if_neg (by omega)]] at hsome
      cases hsome
    · intro hdim
      rw [get_date_range, show fromYmdOpt y m sd = some ⟨y, m, sd⟩ by
        rw [fromYmdOpt, if_pos ⟨hm1, hm12, hsd1, hdim⟩]]
      rfl
  · rw [get_date_range, show fromYmdOpt y m sd = some ⟨y, m, sd⟩ by
      rw [fromYmdOpt, if_pos ⟨hm1, hm12, hsd1, hdim⟩]]
    simp only []
    rw [if_pos hlt]
  · rw [get_date_range, show fromYmdOpt y m sd = some ⟨y, m, sd⟩ by
      rw [fromYmdOpt, if_pos ⟨hm1, hm12, hsd1, hdim⟩]]
    simp only []
    rw [if_neg (by omega)]
  · refine ⟨?_, ?_, ?_, ?_⟩ <;> simp [addOneMonth, subOneMonth]
  · decide
  · decide

/-- Witness for C9: at start day `25` and reference `2024-01-12` the window
runs from `2023-12-25` to `2024-01-25` (the backward shift crossing the
year boundary), and at start day `5` and reference `2024-08-12` it runs
from `2024-08-05` to `2024-09-05`. -/
theorem c9_witness :
    get_date_range 25 ⟨2024, 1, 12⟩ =
      some (formatDate (subOneMonth ⟨2024, 1, 25⟩), formatDate ⟨2024, 1, 25⟩)
    ∧ get_date_range 5 ⟨2024, 8, 12⟩ =
      some (formatDate ⟨2024, 8, 5⟩, formatDate (addOneMonth ⟨2024, 8, 5⟩))
    ∧ (get_date_range 30 ⟨2024, 2, 10⟩).isSome = false := by
  refine ⟨?_, ?_, ?_⟩
  · exact (c9_date_range_spec 25 2024 1 12 (by decide) (by decide)
      (by decide)).2.1 (by decide) (by decide)
  · exact (c9_date_range_spec 5 2024 8 12 (by decide) (by decide)
      (by decide)).2.2.1 (by decide) (by decide)
  · rw [Bool.eq_false_iff]
    intro hsome
    exact absurd ((c9_date_range_spec 30 2024 2 10 (by decide) (by decide)
      (by decide)).1.mp hsome) (by decide)

/-- C10: when the start day exists in the reference's month but not in the
adjacent month used for the shift, `get_date_range` still succeeds and the
shifted bound is clamped to the last day of that adjacent month (so it does
not fall on the start day). -/
theorem c10_adjacent_month_clamp (sd : Nat) (y : Int) (m d : Nat)
    (hsd1 : 1 ≤ sd) (href : (fromYmdOpt y m d).isSome = true)
    (hdim : sd ≤ daysInMonth y m) :
    ((get_date_range sd ⟨y, m, d⟩).isSome = true)
    ∧ (d < sd →
       daysInMonth (if m = 1 then y - 1 else y) (if m = 1 then 12 else m - 1)
           < sd →
       (subOneMonth ⟨y, m, sd⟩).day =
           daysInMonth (if m = 1 then y - 1 else y) (if m = 1 then 12 else m - 1)
         ∧ (subOneMonth ⟨y, m, sd⟩).day ≠ sd
         ∧ get_date_range sd ⟨y, m, d⟩ =
             some (formatDate (subOneMonth ⟨y, m, sd⟩), formatDate ⟨y, m, sd⟩))
    ∧ (sd ≤ d →
       daysInMonth (if m = 12 then y + 1 else y) (if m = 12 then 1 else m + 1)
           < sd →
       (addOneMonth ⟨y, m, sd⟩).day =
           daysInMonth (if m = 12 then y + 1 else y) (if m = 12 then 1 else m + 1)
         ∧ (addOneMonth ⟨y, m, sd⟩).day ≠ sd
         ∧ get_date_range sd ⟨y, m, d⟩ =
             some (formatDate ⟨y, m, sd⟩, formatDate (addOneMonth ⟨y, m, sd⟩))) := by
  obtain ⟨hm1, hm12, _, _⟩ := (fromYmdOpt_isSome y m d).mp href
  have hcand : fromYmdOpt y m sd = some ⟨y, m, sd⟩ := by
    rw [fromYmdOpt, if_pos ⟨hm1, hm12, hsd1, hdim⟩]
  refine ⟨?_, fun hlt hclamp => ?_, fun hge hclamp => ?_⟩
  · rw [get_date_range, hcand]
    rfl
  · refine ⟨?_, ?_, ?_⟩
    · simp only [subOneMonth]
      omega
    · simp only [subOneMonth]
      omega
    · rw [get_date_range, hcand]
      simp only []
      rw [if_pos hlt]
  · refine ⟨?_, ?_, ?_⟩
    · simp only [addOneMonth]
      omega
    · simp only [addOneMonth]
      omega
    · rw [get_date_range, hcand]
      simp only []
      rw [if_neg (by omega)]

/-- Witness for C10: start day `31` with reference `2024-08-31` succeeds
and the forward-shifted end bound is clamped to September 30. -/
theorem c10_witness :
    (get_date_range 31 ⟨2024, 8, 31⟩).isSome = true
    ∧ (addOneMonth ⟨2024, 8, 31⟩).day = 30
    ∧ (addOneMonth ⟨2024, 8, 31⟩).day ≠ 31
    ∧ get_date_range 31 ⟨2024, 8, 31⟩ =
        some (formatDate ⟨2024, 8, 31⟩, formatDate (addOneMonth ⟨2024, 8, 31⟩)) := by
  have h := c10_adjacent_month_clamp 31 2024 8 31 (by decide) (by decide)
    (by decide)
  have h2 := h.2.2 (by decide) (by decide)
  exact ⟨h.1, by simpa using h2.1, by simpa using h2.2.1, h2.2.2⟩
